import Mathlib

/-!
Shallow embedding of the sprite pipeline in
`scripts/generate-npc-walk-from-originals.py`: border-seeded flood-fill
background segmentation, alpha masking, content cropping, aspect scaling
and walk-frame compositing, together with proofs of the stated properties.

Coordinates are integers (Python `int`); channel values are naturals.
Pixel access is modelled as a total function; only coordinates inside
`0 ≤ x < width`, `0 ≤ y < height` are meaningful.
-/

namespace NpcWalk

/-- An 8-bit RGBA pixel; channels are naturals in `0..255`. -/
structure RGBA where
  r : ℕ
  g : ℕ
  b : ℕ
  a : ℕ
deriving DecidableEq

/-- A raster image: dimensions plus a total pixel function. -/
structure Img where
  width : ℕ
  height : ℕ
  px : ℤ → ℤ → RGBA

/-- Definition `is_bg_pixel(r, g, b)` from the script: the near-white test.
All three channels at least 220, and max channel minus min channel at
most 24. -/
def is_bg_pixel (r g b : ℕ) : Bool :=
  if r < 220 ∨ g < 220 ∨ b < 220 then false
  else decide (max (max r g) b - min (min r g) b ≤ 24)

/-- State of the flood-fill worklist: the set of pixels marked background
(`bg[y][x]` in the script) and the FIFO queue (`q`, a deque appended at the
back and popped at the front). -/
abbrev FloodState := Finset (ℤ × ℤ) × List (ℤ × ℤ)

/-- Definition `push_if_bg(x, y)` from the script: reject out-of-bounds coordinates,
already-marked pixels and pixels failing the near-white test; otherwise
mark the pixel background and enqueue it. The flood fill reads the image
converted to RGB, i.e. only the `r`, `g`, `b` channels. -/
def push_if_bg (img : Img) (s : FloodState) (x y : ℤ) : FloodState :=
  if x < 0 ∨ y < 0 ∨ (img.width : ℤ) ≤ x ∨ (img.height : ℤ) ≤ y then s
  else if (x, y) ∈ s.1 then s
  else if is_bg_pixel (img.px x y).r (img.px x y).g (img.px x y).b = false then s
  else (insert (x, y) s.1, s.2 ++ [(x, y)])

/-- Border seeding from the script: `push_if_bg(x, 0)` and
`push_if_bg(x, h - 1)` for every column, then `push_if_bg(0, y)` and
`push_if_bg(w - 1, y)` for every row. -/
def seedState (img : Img) : FloodState :=
  let s1 := (List.range img.width).foldl
    (fun s (xn : ℕ) =>
      push_if_bg img (push_if_bg img s (xn : ℤ) 0) (xn : ℤ) ((img.height : ℤ) - 1))
    ((∅ : Finset (ℤ × ℤ)), ([] : List (ℤ × ℤ)))
  (List.range img.height).foldl
    (fun s (yn : ℕ) =>
      push_if_bg img (push_if_bg img s 0 (yn : ℤ)) ((img.width : ℤ) - 1) (yn : ℤ))
    s1

/-- One BFS expansion step: push the four axis-aligned neighbours of the
pixel just dequeued, in the script's order. -/
def expand (img : Img) (x y : ℤ) (s : FloodState) : FloodState :=
  push_if_bg img
    (push_if_bg img (push_if_bg img (push_if_bg img s (x + 1) y) (x - 1) y) x (y + 1))
    x (y - 1)

/-- The worklist loop, `while q:` in the script. The fuel counts dequeues: each recursive
call pops exactly one queue entry. `floodLoop_isSome` below shows that
`width * height` fuel always suffices, so the fuel is a termination
argument, not a behavioural change. -/
def floodLoop (img : Img) : ℕ → FloodState → Option (Finset (ℤ × ℤ))
  | _, (bg, []) => some bg
  | 0, (_, _ :: _) => none
  | fuel + 1, (bg, (x, y) :: rest) => floodLoop img fuel (expand img x y (bg, rest))

/-- The background mask computed by `remove_border_background`: run the
worklist to completion (fuel `width * height` dequeues always suffices). -/
def bgMask (img : Img) : Finset (ℤ × ℤ) :=
  (floodLoop img (img.width * img.height) (seedState img)).getD ∅

/-- In-bounds test for a coordinate. -/
def inB (img : Img) (x y : ℤ) : Prop :=
  0 ≤ x ∧ x < img.width ∧ 0 ≤ y ∧ y < img.height

/-- Adjacency in the four axis directions. -/
def adj4 (x y xx yy : ℤ) : Prop :=
  (xx = x + 1 ∧ yy = y) ∨ (xx = x - 1 ∧ yy = y) ∨
  (xx = x ∧ yy = y + 1) ∨ (xx = x ∧ yy = y - 1)

/-- Reachability from a canvas-border pixel through a chain of
4-directionally-adjacent pixels that each satisfy the near-white test. -/
inductive Reach (img : Img) : ℤ → ℤ → Prop where
  | border (x y : ℤ) : inB img x y →
      (x = 0 ∨ y = 0 ∨ x = (img.width : ℤ) - 1 ∨ y = (img.height : ℤ) - 1) →
      is_bg_pixel (img.px x y).r (img.px x y).g (img.px x y).b = true →
      Reach img x y
  | step (x y xx yy : ℤ) : Reach img x y → adj4 x y xx yy → inB img xx yy →
      is_bg_pixel (img.px xx yy).r (img.px xx yy).g (img.px xx yy).b = true →
      Reach img xx yy

/-- The full coordinate grid of an image. -/
def grid (img : Img) : Finset (ℤ × ℤ) :=
  Finset.Icc 0 ((img.width : ℤ) - 1) ×ˢ Finset.Icc 0 ((img.height : ℤ) - 1)

/-- Termination measure of the worklist: queue length plus unmarked pixels. -/
def fmeasure (img : Img) (s : FloodState) : ℕ :=
  s.2.length + (grid img \ s.1).card

/-- Functional update of a pixel function at one coordinate
(`out[x, y] = v` on a loaded PIL image). -/
def setPx (f : ℤ → ℤ → RGBA) (x y : ℤ) (v : RGBA) : ℤ → ℤ → RGBA :=
  fun xx yy => if xx = x ∧ yy = y then v else f xx yy

/-- The per-pixel write of the output loop: keep `r`, `g`, `b` of the
current value, set alpha to 0 on masked pixels and 255 otherwise. -/
def maskAlpha (mask : Finset (ℤ × ℤ)) (x y : ℤ) (v : RGBA) : RGBA :=
  ⟨v.r, v.g, v.b, if (x, y) ∈ mask then 0 else 255⟩

/-- The inner `for x in range(w):` loop of the output pass, writing one row:
read `r, g, b, _ = out[x, y]`, then write back with the mask alpha. -/
def applyRow (mask : Finset (ℤ × ℤ)) (w : ℕ) (y : ℤ) (f : ℤ → ℤ → RGBA) :
    ℤ → ℤ → RGBA :=
  (List.range w).foldl
    (fun g (xn : ℕ) => setPx g (xn : ℤ) y (maskAlpha mask (xn : ℤ) y (g (xn : ℤ) y))) f

/-- The outer `for y in range(h):` loop of the output pass. -/
def applyMaskFold (mask : Finset (ℤ × ℤ)) (w h : ℕ) (f : ℤ → ℤ → RGBA) :
    ℤ → ℤ → RGBA :=
  (List.range h).foldl (fun g (yn : ℕ) => applyRow mask w (yn : ℤ) g) f

/-- Function `remove_border_background`: compute the border-seeded flood-fill mask,
convert the RGB image to RGBA (alpha 255 everywhere), then run the output
write loop that zeroes alpha on masked pixels. -/
def remove_border_background (img : Img) : Img :=
  ⟨img.width, img.height,
    applyMaskFold (bgMask img) img.width img.height
      (fun x y => ⟨(img.px x y).r, (img.px x y).g, (img.px x y).b, 255⟩)⟩

/-- Columns containing a pixel with non-zero alpha (the columns spanned by
`alpha.getbbox()`). -/
def contentCols (img : Img) : Finset ℕ :=
  (Finset.range img.width).filter
    (fun x => ∃ y ∈ Finset.range img.height, (img.px (x : ℤ) (y : ℤ)).a ≠ 0)

/-- Rows containing a pixel with non-zero alpha. -/
def contentRows (img : Img) : Finset ℕ :=
  (Finset.range img.height).filter
    (fun y => ∃ x ∈ Finset.range img.width, (img.px (x : ℤ) (y : ℤ)).a ≠ 0)

/-- Model of `alpha.getbbox()`: the bounding box `(left, top, right, bottom)` of the
non-zero-alpha region, right and bottom exclusive; `none` when every pixel
has alpha 0. -/
def getbbox (img : Img) : Option (ℕ × ℕ × ℕ × ℕ) :=
  if hc : (contentCols img).Nonempty then
    if hr : (contentRows img).Nonempty then
      some ((contentCols img).min' hc, (contentRows img).min' hr,
        (contentCols img).max' hc + 1, (contentRows img).max' hr + 1)
    else none
  else none

/-- Model of `img.crop((l, t, r, b))`: the `(r - l) × (b - t)` sub-image whose pixel
`(x, y)` is the source pixel `(l + x, t + y)`. -/
def crop (img : Img) (l t r b : ℕ) : Img :=
  ⟨r - l, b - t, fun x y => img.px ((l : ℤ) + x) ((t : ℤ) + y)⟩

/-- Function `crop_alpha(img, pad)`: crop to the alpha bounding box expanded by
`pad` and clamped to the image bounds; return the image unmodified when
there is no non-transparent pixel. `max(0, l - pad)` on Python ints equals
truncated subtraction `l - pad` on naturals. -/
def crop_alpha (img : Img) (pad : ℕ) : Img :=
  match getbbox img with
  | none => img
  | some (l, t, r, b) =>
      crop img (l - pad) (t - pad) (min img.width (r + pad)) (min img.height (b + pad))

/-- Constant `TARGET_H` from the script. -/
def TARGET_H : ℕ := 30

/-- Failure modes of the scaling step. `zeroDivisionError` is what Python
raises for `TARGET_H / 0`. `degenerateImage` is the error named by the
specification only; nothing in the code ever produces it, it exists here
solely so the specification's claim can be stated and compared. -/
inductive ScaleError where
  | zeroDivisionError
  | degenerateImage
deriving DecidableEq

/-- Halving count with explicit fuel, so the kernel can evaluate it by
structural recursion; fuel `n` itself always suffices for input `n`. -/
def bitLenAux : ℕ → ℕ → ℕ
  | 0, _ => 0
  | fuel + 1, n => if n = 0 then 0 else bitLenAux fuel (n / 2) + 1

/-- Number of binary digits of `n`: zero for `n = 0`, otherwise the
unique `k` with `2 ^ (k - 1) ≤ n < 2 ^ k` (`bitLen_spec` below). -/
def bitLen (n : ℕ) : ℕ := bitLenAux n n

/-- Round-to-nearest, ties-to-even, of the fraction `a / b` (`b ≥ 1`):
the rounding IEEE-754 binary64 arithmetic applies to every operation. -/
def rneDiv (a b : ℕ) : ℕ :=
  if 2 * (a % b) < b then a / b
  else if b < 2 * (a % b) then a / b + 1
  else if (a / b) % 2 = 0 then a / b else a / b + 1

/-- The IEEE-754 binary64 value of `n / d` (`1 ≤ n < 2 ^ 52`, `1 ≤ d`,
`d ≤ n * 2 ^ 64`) as a mantissa-exponent pair of value `m / 2 ^ (52 - e)`:
`e` is the binade exponent of `n / d` and `m` its 53-bit significand,
rounded to nearest with ties to even. CPython's `int / int` true division
returns exactly this correctly rounded double; all values reached from
this script are normal (no overflow, no subnormals). -/
def floatDivB64 (n d : ℕ) : ℕ × ℤ :=
  let e : ℤ := (bitLen (n * 2 ^ 64 / d) : ℤ) - 65
  (rneDiv (n * 2 ^ Int.toNat (52 - e)) d, e)

/-- The binary64 product of an integer `w` with the double
`m / 2 ^ (52 - e)`; `w` converts to double exactly (PIL dimensions are
far below `2 ^ 53`), and the product is exact when it fits in 53 bits and
otherwise rounded to nearest, ties to even. -/
def floatMulB64 (w m : ℕ) (e : ℤ) : ℕ × ℤ :=
  if bitLen (w * m) ≤ 53 then (w * m, e)
  else (rneDiv (w * m) (2 ^ (bitLen (w * m) - 53)), e + (bitLen (w * m) - 53 : ℕ))

/-- Truncation toward zero — Python's `int(...)` — of the non-negative
double `m / 2 ^ (52 - e)`. -/
def truncB64 (m : ℕ) (e : ℤ) : ℕ :=
  if 52 ≤ e then m * 2 ^ Int.toNat (e - 52) else m / 2 ^ Int.toNat (52 - e)

/-- Python's `int(w * (TARGET_H / h))` (`h ≥ 1`) computed in IEEE-754
binary64 arithmetic exactly as CPython evaluates it: correctly rounded
true division `TARGET_H / h`, exact int-to-double conversion of `w`,
correctly rounded multiplication, truncation toward zero — reproduced
here in exact integer arithmetic. -/
def py_scaled_width (w h : ℕ) : ℕ :=
  truncB64 (floatMulB64 w (floatDivB64 TARGET_H h).1 (floatDivB64 TARGET_H h).2).1
    (floatMulB64 w (floatDivB64 TARGET_H h).1 (floatDivB64 TARGET_H h).2).2

/-- The width computed by `prep_sprite`:
`max(1, int(cropped.width * (TARGET_H / cropped.height)))` for `h ≠ 0`. -/
def scaled_width (w h : ℕ) : ℕ :=
  max 1 (py_scaled_width w h)

/-- The size of the image produced by `prep_sprite`'s resize step
(`cropped.resize((tw, TARGET_H), LANCZOS)`), as a fallible computation:
evaluating `TARGET_H / cropped.height` with height 0 raises an uncaught
`ZeroDivisionError`. -/
def prep_sprite_size (w h : ℕ) : Except ScaleError (ℕ × ℕ) :=
  if h = 0 then Except.error ScaleError.zeroDivisionError
  else Except.ok (scaled_width w h, TARGET_H)

/-- Modelled from the spec: the width the specification's Scaler contract
prescribes, `round(source width × target height / source height)` with a
floor of 1 pixel. Present only to compare with `scaled_width`. -/
def spec_scaled_width (w h : ℕ) : ℕ :=
  max 1 (Int.toNat (round ((w : ℚ) * (TARGET_H : ℚ) / (h : ℚ))))

/-- Constant `CANVAS` from the script. -/
def CANVAS : ℕ × ℕ := (32, 32)

/-- Constant `OFFSETS` from the script: the fixed 4-entry walk-cycle offset table. -/
def OFFSETS : List (ℤ × ℤ) := [(0, 0), (1, -1), (0, 0), (-1, -1)]

/-- The error PIL's `Image.alpha_composite` raises when the paste
destination has a negative coordinate. -/
inductive PasteError where
  | valueError
deriving DecidableEq

/-- Straight (non-premultiplied) alpha "over" blending of one pixel onto
another, with 255-scaled integer arithmetic and round-to-nearest on each
channel, modelling PIL's `alpha_composite` pixel operation. -/
def alpha_over (fg bg : RGBA) : RGBA :=
  let oa := fg.a * 255 + bg.a * (255 - fg.a)
  if oa = 0 then ⟨0, 0, 0, 0⟩
  else
    ⟨(fg.r * (fg.a * 255) + bg.r * (bg.a * (255 - fg.a)) + oa / 2) / oa,
     (fg.g * (fg.a * 255) + bg.g * (bg.a * (255 - fg.a)) + oa / 2) / oa,
     (fg.b * (fg.a * 255) + bg.b * (bg.a * (255 - fg.a)) + oa / 2) / oa,
     (oa + 127) / 255⟩

/-- Pixel membership for the filled ellipse inscribed in the inclusive box
`(x0, y0, x1, y1)`, modelled as the standard inscribed-ellipse inequality
(doubled coordinates keep everything integral). `ImageDraw.ellipse` sets
the ink directly on these pixels. -/
def in_ellipse (x0 y0 x1 y1 x y : ℤ) : Bool :=
  decide ((2 * x - (x0 + x1)) ^ 2 * (y1 - y0) ^ 2 +
      (2 * y - (y0 + y1)) ^ 2 * (x1 - x0) ^ 2 ≤ (x1 - x0) ^ 2 * (y1 - y0) ^ 2)

/-- The shadow fill colour `(30, 42, 30, 105)`. -/
def shadowColor : RGBA := ⟨30, 42, 30, 105⟩

/-- The shadow layer of one frame: a transparent canvas-sized image with
`d.ellipse((10 + dx, 27, 22 + dx, 31), fill=(30, 42, 30, 105))` drawn on
it. -/
def shadow_img (dx : ℤ) : Img :=
  ⟨CANVAS.1, CANVAS.2, fun x y =>
    if in_ellipse (10 + dx) 27 (22 + dx) 31 x y then shadowColor else ⟨0, 0, 0, 0⟩⟩

/-- Model of `base.alpha_composite(overlay, (dx, dy))`: raises `ValueError` when the
destination is negative; otherwise blends the overlay over the base on the
overlap of the shifted overlay with the base (the overlay is cropped to
fit, never the reverse). -/
def alpha_composite_at (base overlay : Img) (dx dy : ℤ) : Except PasteError Img :=
  if dx < 0 ∨ dy < 0 then Except.error PasteError.valueError
  else Except.ok ⟨base.width, base.height, fun x y =>
    if dx ≤ x ∧ x < dx + overlay.width ∧ dy ≤ y ∧ y < dy + overlay.height ∧
        x < base.width ∧ y < base.height
    then alpha_over (overlay.px (x - dx) (y - dy)) (base.px x y)
    else base.px x y⟩

/-- Model of `Image.new('RGBA', CANVAS, (0, 0, 0, 0))`: the fresh transparent
canvas every frame starts from. -/
def emptyCanvas : Img := ⟨CANVAS.1, CANVAS.2, fun _ _ => ⟨0, 0, 0, 0⟩⟩

/-- Anchor `base_x = (CANVAS[0] - sw) // 2`. Python `//` floors; the divisor 2 is
positive, so Euclidean division (Lean's `/` on `ℤ`) coincides with it. -/
def base_x (sprite : Img) : ℤ := ((CANVAS.1 : ℤ) - (sprite.width : ℤ)) / 2

/-- Anchor `base_y = CANVAS[1] - sh`. -/
def base_y (sprite : Img) : ℤ := (CANVAS.2 : ℤ) - (sprite.height : ℤ)

/-- One iteration of the `for i, (dx, dy) in enumerate(OFFSETS):` loop:
fresh transparent canvas, shadow composited over it at `(0, 0)`, then the
sprite composited at `(base_x + dx, base_y + dy)`. -/
def composeFrame (sprite : Img) (off : ℤ × ℤ) : Except PasteError Img :=
  match alpha_composite_at emptyCanvas (shadow_img off.1) 0 0 with
  | Except.error e => Except.error e
  | Except.ok f1 =>
      alpha_composite_at f1 sprite (base_x sprite + off.1) (base_y sprite + off.2)

/-- The frame loop: frames are saved one by one as produced, so an error
partway leaves the earlier frames written. The result is the list of
frames produced together with the error that stopped the loop, if any. -/
def composeLoop (sprite : Img) : List (ℤ × ℤ) → List Img × Option PasteError
  | [] => ([], none)
  | off :: rest =>
      match composeFrame sprite off with
      | Except.error e => ([], some e)
      | Except.ok f =>
          let tail := composeLoop sprite rest
          (f :: tail.1, tail.2)

/-- Function `compose_walk_frames`: one frame per entry of `OFFSETS`. -/
def compose_walk_frames (sprite : Img) : List Img × Option PasteError :=
  composeLoop sprite OFFSETS

/-- A 1-pixel all-black image (concrete test input). -/
def blackDot : Img := ⟨1, 1, fun _ _ => ⟨0, 0, 0, 255⟩⟩

/-- A 2×2 all-white opaque image (concrete test input). -/
def whiteSquare : Img := ⟨2, 2, fun _ _ => ⟨255, 255, 255, 255⟩⟩

/-- A 3×3 fully transparent image (concrete test input). -/
def clearImg : Img := ⟨3, 3, fun _ _ => ⟨7, 7, 7, 0⟩⟩

/-- A small 2×3 opaque sprite (concrete test input). -/
def sprTest : Img := ⟨2, 3, fun _ _ => ⟨0, 0, 255, 255⟩⟩

/-- A 31×30 opaque sprite: one pixel too wide for the offset table. -/
def wideSprite : Img := ⟨31, 30, fun _ _ => ⟨0, 0, 255, 255⟩⟩

/-- A 33×10 opaque sprite: wide enough that even frame 0 fails. -/
def spr33 : Img := ⟨33, 10, fun _ _ => ⟨0, 0, 255, 255⟩⟩

/-- Invariant of the worklist: marked pixels are in bounds, queued pixels
are marked, and marked pixels are border-reachable. -/
def FloodInv (img : Img) (s : FloodState) : Prop :=
  s.1 ⊆ grid img ∧ (∀ p ∈ s.2, p ∈ s.1) ∧ (∀ p ∈ s.1, Reach img p.1 p.2)

theorem mem_grid {img : Img} {p : ℤ × ℤ} :
    p ∈ grid img ↔ 0 ≤ p.1 ∧ p.1 < img.width ∧ 0 ≤ p.2 ∧ p.2 < img.height := by
  simp only [grid, Finset.mem_product, Finset.mem_Icc]
  omega

theorem card_grid (img : Img) : (grid img).card = img.width * img.height := by
  have h1 : (Finset.Icc (0 : ℤ) ((img.width : ℤ) - 1)).card = img.width := by
    rw [Int.card_Icc]; omega
  have h2 : (Finset.Icc (0 : ℤ) ((img.height : ℤ) - 1)).card = img.height := by
    rw [Int.card_Icc]; omega
  rw [grid, Finset.card_product, h1, h2]

theorem push_subset_grid {img : Img} {s : FloodState} {x y : ℤ}
    (h : s.1 ⊆ grid img) : (push_if_bg img s x y).1 ⊆ grid img := by
  unfold push_if_bg
  split_ifs with h1 h2 h3
  · exact h
  · exact h
  · exact h
  · intro p hp
    rcases Finset.mem_insert.mp hp with rfl | hp
    · rw [mem_grid]
      push_neg at h1
      exact ⟨h1.1, by simpa using h1.2.2.1, h1.2.1, by simpa using h1.2.2.2⟩
    · exact h hp

theorem push_fmeasure {img : Img} {s : FloodState} {x y : ℤ} :
    fmeasure img (push_if_bg img s x y) = fmeasure img s := by
  unfold push_if_bg
  split_ifs with h1 h2 h3
  · rfl
  · rfl
  · rfl
  · have hmem : (x, y) ∈ grid img \ s.1 := by
      rw [Finset.mem_sdiff, mem_grid]
      push_neg at h1
      exact ⟨⟨h1.1, by simpa using h1.2.2.1, h1.2.1, by simpa using h1.2.2.2⟩, h2⟩
    have hpos : 1 ≤ (grid img \ s.1).card := Finset.card_pos.mpr ⟨_, hmem⟩
    show (s.2 ++ [(x, y)]).length + (grid img \ insert (x, y) s.1).card = fmeasure img s
    rw [Finset.sdiff_insert, Finset.card_erase_of_mem hmem]
    simp only [List.length_append, List.length_singleton, fmeasure]
    omega

theorem push_queue_in_bg {img : Img} {s : FloodState} {x y : ℤ}
    (h : ∀ p ∈ s.2, p ∈ s.1) :
    ∀ p ∈ (push_if_bg img s x y).2, p ∈ (push_if_bg img s x y).1 := by
  unfold push_if_bg
  split_ifs with h1 h2 h3
  · exact h
  · exact h
  · exact h
  · intro p hp
    rcases List.mem_append.mp hp with hp | hp
    · exact Finset.mem_insert_of_mem (h p hp)
    · simp only [List.mem_singleton] at hp
      subst hp
      exact Finset.mem_insert_self _ _

theorem push_sound {img : Img} {s : FloodState} {x y : ℤ}
    (hs : ∀ p ∈ s.1, Reach img p.1 p.2)
    (hj : inB img x y →
      is_bg_pixel (img.px x y).r (img.px x y).g (img.px x y).b = true →
      Reach img x y) :
    ∀ p ∈ (push_if_bg img s x y).1, Reach img p.1 p.2 := by
  unfold push_if_bg
  split_ifs with h1 h2 h3
  · exact hs
  · exact hs
  · exact hs
  · intro p hp
    rcases Finset.mem_insert.mp hp with rfl | hp
    · push_neg at h1
      exact hj ⟨h1.1, by simpa using h1.2.2.1, h1.2.1, by simpa using h1.2.2.2⟩
        (by simpa using h3)
    · exact hs p hp

theorem push_inv {img : Img} {s : FloodState} {x y : ℤ}
    (h : FloodInv img s)
    (hj : inB img x y →
      is_bg_pixel (img.px x y).r (img.px x y).g (img.px x y).b = true →
      Reach img x y) :
    FloodInv img (push_if_bg img s x y) :=
  ⟨push_subset_grid h.1, push_queue_in_bg h.2.1, push_sound h.2.2 hj⟩

theorem foldl_pres {α : Type} (P : FloodState → Prop) (f : FloodState → α → FloodState)
    (hf : ∀ s a, P s → P (f s a)) :
    ∀ (l : List α) (s : FloodState), P s → P (l.foldl f s) := by
  intro l
  induction l with
  | nil => intro s hs; exact hs
  | cons a t ih => intro s hs; exact ih _ (hf s a hs)

theorem seed_inv (img : Img) :
    FloodInv img (seedState img) ∧
      fmeasure img (seedState img) = img.width * img.height := by
  have base : FloodInv img ((∅ : Finset (ℤ × ℤ)), ([] : List (ℤ × ℤ))) ∧
      fmeasure img ((∅ : Finset (ℤ × ℤ)), ([] : List (ℤ × ℤ)))
        = img.width * img.height := by
    refine ⟨⟨by simp, by simp, by simp⟩, ?_⟩
    simp [fmeasure, card_grid]
  unfold seedState
  apply foldl_pres
    (fun s => FloodInv img s ∧ fmeasure img s = img.width * img.height)
  · intro s yn hP
    have h1 : FloodInv img (push_if_bg img s 0 (yn : ℤ)) :=
      push_inv hP.1 (fun hin hbg => Reach.border 0 (yn : ℤ) hin (Or.inl rfl) hbg)
    have h2 : FloodInv img
        (push_if_bg img (push_if_bg img s 0 (yn : ℤ)) ((img.width : ℤ) - 1) (yn : ℤ)) :=
      push_inv h1 (fun hin hbg =>
        Reach.border ((img.width : ℤ) - 1) (yn : ℤ) hin (Or.inr (Or.inr (Or.inl rfl))) hbg)
    refine ⟨h2, ?_⟩
    rw [push_fmeasure, push_fmeasure]
    exact hP.2
  · apply foldl_pres
      (fun s => FloodInv img s ∧ fmeasure img s = img.width * img.height)
    · intro s xn hP
      have h1 : FloodInv img (push_if_bg img s (xn : ℤ) 0) :=
        push_inv hP.1 (fun hin hbg =>
          Reach.border (xn : ℤ) 0 hin (Or.inr (Or.inl rfl)) hbg)
      have h2 : FloodInv img
          (push_if_bg img (push_if_bg img s (xn : ℤ) 0) (xn : ℤ) ((img.height : ℤ) - 1)) :=
        push_inv h1 (fun hin hbg =>
          Reach.border (xn : ℤ) ((img.height : ℤ) - 1) hin
            (Or.inr (Or.inr (Or.inr rfl))) hbg)
      refine ⟨h2, ?_⟩
      rw [push_fmeasure, push_fmeasure]
      exact hP.2
    · exact base

theorem expand_subset_grid {img : Img} {x y : ℤ} {s : FloodState}
    (h : s.1 ⊆ grid img) : (expand img x y s).1 ⊆ grid img :=
  push_subset_grid (push_subset_grid (push_subset_grid (push_subset_grid h)))

theorem expand_fmeasure {img : Img} {x y : ℤ} {s : FloodState} :
    fmeasure img (expand img x y s) = fmeasure img s := by
  unfold expand
  rw [push_fmeasure, push_fmeasure, push_fmeasure, push_fmeasure]

theorem expand_inv {img : Img} {x y : ℤ} {s : FloodState}
    (hxy : Reach img x y) (h : FloodInv img s) : FloodInv img (expand img x y s) := by
  unfold expand
  refine push_inv (push_inv (push_inv (push_inv h ?_) ?_) ?_) ?_
  · exact fun hin hbg => Reach.step x y (x + 1) y hxy (Or.inl ⟨rfl, rfl⟩) hin hbg
  · exact fun hin hbg =>
      Reach.step x y (x - 1) y hxy (Or.inr (Or.inl ⟨rfl, rfl⟩)) hin hbg
  · exact fun hin hbg =>
      Reach.step x y x (y + 1) hxy (Or.inr (Or.inr (Or.inl ⟨rfl, rfl⟩))) hin hbg
  · exact fun hin hbg =>
      Reach.step x y x (y - 1) hxy (Or.inr (Or.inr (Or.inr ⟨rfl, rfl⟩))) hin hbg

theorem floodLoop_isSome (img : Img) :
    ∀ (fuel : ℕ) (s : FloodState), fmeasure img s ≤ fuel →
      (floodLoop img fuel s).isSome := by
  intro fuel
  induction fuel with
  | zero =>
      rintro ⟨bg, q⟩ hm
      cases q with
      | nil => simp [floodLoop]
      | cons p rest =>
          exfalso
          simp only [fmeasure, List.length_cons] at hm
          omega
  | succ fuel ih =>
      rintro ⟨bg, q⟩ hm
      cases q with
      | nil => simp [floodLoop]
      | cons p rest =>
          obtain ⟨x, y⟩ := p
          show (floodLoop img fuel (expand img x y (bg, rest))).isSome
          apply ih
          rw [expand_fmeasure]
          simp only [fmeasure, List.length_cons] at hm ⊢
          omega

theorem floodLoop_sound (img : Img) :
    ∀ (fuel : ℕ) (s : FloodState), FloodInv img s →
      ∀ bgF, floodLoop img fuel s = some bgF → ∀ p ∈ bgF, Reach img p.1 p.2 := by
  intro fuel
  induction fuel with
  | zero =>
      rintro ⟨bg, q⟩ hinv bgF heq
      cases q with
      | nil =>
          simp only [floodLoop, Option.some.injEq] at heq
          subst heq
          exact hinv.2.2
      | cons p rest => simp [floodLoop] at heq
  | succ fuel ih =>
      rintro ⟨bg, q⟩ hinv bgF heq
      cases q with
      | nil =>
          simp only [floodLoop, Option.some.injEq] at heq
          subst heq
          exact hinv.2.2
      | cons p rest =>
          obtain ⟨x, y⟩ := p
          have hxy : Reach img x y :=
            hinv.2.2 (x, y) (hinv.2.1 (x, y) (List.mem_cons_self _ _))
          have hinv' : FloodInv img ((bg, rest) : FloodState) :=
            ⟨hinv.1, fun p hp => hinv.2.1 p (List.mem_cons_of_mem _ hp), hinv.2.2⟩
          exact ih _ (expand_inv hxy hinv') bgF heq

theorem bgMask_sound {img : Img} {p : ℤ × ℤ} (hp : p ∈ bgMask img) :
    Reach img p.1 p.2 := by
  have hsome := floodLoop_isSome img (img.width * img.height) (seedState img)
    (le_of_eq (seed_inv img).2)
  obtain ⟨bgF, heq⟩ := Option.isSome_iff_exists.mp hsome
  rw [bgMask, heq] at hp
  simp only [Option.getD_some] at hp
  exact floodLoop_sound img _ _ (seed_inv img).1 bgF heq p hp

theorem foldRow_at (mask : Finset (ℤ × ℤ)) (y : ℤ) (l : List ℕ) (hl : l.Nodup)
    (f : ℤ → ℤ → RGBA) (a b : ℤ) :
    (l.foldl (fun g (xn : ℕ) => setPx g (xn : ℤ) y (maskAlpha mask (xn : ℤ) y (g (xn : ℤ) y))) f) a b
      = if (∃ xn ∈ l, (xn : ℤ) = a) ∧ b = y then maskAlpha mask a b (f a b)
        else f a b := by
  induction l generalizing f with
  | nil =>
      have hno : ¬ ((∃ xn ∈ ([] : List ℕ), (xn : ℤ) = a) ∧ b = y) := by
        rintro ⟨⟨xn, hxn, -⟩, -⟩
        exact (List.not_mem_nil xn) hxn
      rw [List.foldl_nil, if_neg hno]
  | cons c t ih =>
      obtain ⟨hc, ht⟩ := List.nodup_cons.mp hl
      simp only [List.foldl_cons]
      rw [ih ht]
      by_cases hb : b = y
      · subst hb
        by_cases ha : (c : ℤ) = a
        · have hnt : ¬ ∃ xn ∈ t, (xn : ℤ) = a := by
            rintro ⟨xn, hxn, hcast⟩
            apply hc
            have hxc : xn = c := by exact_mod_cast hcast.trans ha.symm
            rwa [← hxc]
          rw [if_neg (fun hh => hnt hh.1), if_pos ⟨⟨c, List.mem_cons_self c t, ha⟩, rfl⟩]
          show setPx f (c : ℤ) b (maskAlpha mask (c : ℤ) b (f (c : ℤ) b)) a b = _
          unfold setPx
          rw [if_pos ⟨ha.symm, rfl⟩, ha]
        · have hgf : setPx f (c : ℤ) b (maskAlpha mask (c : ℤ) b (f (c : ℤ) b)) a b
              = f a b := by
            unfold setPx
            rw [if_neg (fun hh => ha hh.1.symm)]
          by_cases he : ∃ xn ∈ t, (xn : ℤ) = a
          · rw [if_pos ⟨he, rfl⟩, hgf]
            obtain ⟨xn, hxn, hxc⟩ := he
            rw [if_pos ⟨⟨xn, List.mem_cons_of_mem _ hxn, hxc⟩, rfl⟩]
          · have hno : ¬ ((∃ xn ∈ c :: t, (xn : ℤ) = a) ∧ b = b) := by
              rintro ⟨⟨xn, hxn, hxc⟩, -⟩
              rcases List.mem_cons.mp hxn with rfl | hxn'
              · exact ha hxc
              · exact he ⟨xn, hxn', hxc⟩
            rw [if_neg (fun hh => he hh.1), hgf, if_neg hno]
      · have hgf : setPx f (c : ℤ) y (maskAlpha mask (c : ℤ) y (f (c : ℤ) y)) a b
            = f a b := by
          unfold setPx
          rw [if_neg (fun hh => hb hh.2)]
        rw [if_neg (fun hh => hb hh.2), hgf, if_neg (fun hh => hb hh.2)]

theorem foldMask_at (mask : Finset (ℤ × ℤ)) (w : ℕ) (lr : List ℕ) (hr : lr.Nodup)
    (f : ℤ → ℤ → RGBA) (a b : ℤ) :
    (lr.foldl (fun g (yn : ℕ) => applyRow mask w (yn : ℤ) g) f) a b
      = if (∃ yn ∈ lr, (yn : ℤ) = b) ∧ (∃ xn ∈ List.range w, (xn : ℤ) = a)
        then maskAlpha mask a b (f a b) else f a b := by
  induction lr generalizing f with
  | nil =>
      have hno : ¬ ((∃ yn ∈ ([] : List ℕ), (yn : ℤ) = b) ∧
          ∃ xn ∈ List.range w, (xn : ℤ) = a) := by
        rintro ⟨⟨yn, hyn, -⟩, -⟩
        exact (List.not_mem_nil yn) hyn
      rw [List.foldl_nil, if_neg hno]
  | cons c t ih =>
      obtain ⟨hc, ht⟩ := List.nodup_cons.mp hr
      simp only [List.foldl_cons]
      rw [ih ht]
      have hrow : ∀ (g : ℤ → ℤ → RGBA) (aa bb : ℤ),
          applyRow mask w (c : ℤ) g aa bb
            = if (∃ xn ∈ List.range w, (xn : ℤ) = aa) ∧ bb = (c : ℤ)
              then maskAlpha mask aa bb (g aa bb) else g aa bb :=
        fun g aa bb => foldRow_at mask (c : ℤ) (List.range w) (List.nodup_range w) g aa bb
      by_cases hb : (c : ℤ) = b
      · have hnt : ¬ ∃ yn ∈ t, (yn : ℤ) = b := by
          rintro ⟨yn, hyn, hcast⟩
          apply hc
          have hyc : yn = c := by exact_mod_cast hcast.trans hb.symm
          rwa [← hyc]
        by_cases hex : ∃ xn ∈ List.range w, (xn : ℤ) = a
        · rw [if_neg (fun hh => hnt hh.1), if_pos ⟨⟨c, List.mem_cons_self c t, hb⟩, hex⟩]
          rw [hrow f a b, if_pos ⟨hex, hb.symm⟩]
        · rw [if_neg (fun hh => hex hh.2), if_neg (fun hh => hex hh.2)]
          rw [hrow f a b, if_neg (fun hh => hex hh.1)]
      · have hgf : applyRow mask w (c : ℤ) f a b = f a b := by
          rw [hrow f a b, if_neg (fun hh => hb hh.2.symm)]
        by_cases he : ∃ yn ∈ t, (yn : ℤ) = b
        · by_cases hex : ∃ xn ∈ List.range w, (xn : ℤ) = a
          · rw [if_pos ⟨he, hex⟩, hgf]
            obtain ⟨yn, hyn, hyc⟩ := he
            rw [if_pos ⟨⟨yn, List.mem_cons_of_mem _ hyn, hyc⟩, hex⟩]
          · rw [if_neg (fun hh => hex hh.2), hgf, if_neg (fun hh => hex hh.2)]
        · have hno : ¬ ((∃ yn ∈ c :: t, (yn : ℤ) = b) ∧
              ∃ xn ∈ List.range w, (xn : ℤ) = a) := by
            rintro ⟨⟨yn, hyn, hyc⟩, -⟩
            rcases List.mem_cons.mp hyn with rfl | hyn'
            · exact hb hyc
            · exact he ⟨yn, hyn', hyc⟩
          rw [if_neg (fun hh => he hh.1), hgf, if_neg hno]

theorem remove_border_px (img : Img) (x y : ℤ) (hx : 0 ≤ x) (hx2 : x < img.width)
    (hy : 0 ≤ y) (hy2 : y < img.height) :
    (remove_border_background img).px x y
      = ⟨(img.px x y).r, (img.px x y).g, (img.px x y).b,
          if (x, y) ∈ bgMask img then 0 else 255⟩ := by
  have hex_x : ∃ xn ∈ List.range img.width, (xn : ℤ) = x := by
    refine ⟨x.toNat, ?_, ?_⟩
    · rw [List.mem_range]; omega
    · omega
  have hex_y : ∃ yn ∈ List.range img.height, (yn : ℤ) = y := by
    refine ⟨y.toNat, ?_, ?_⟩
    · rw [List.mem_range]; omega
    · omega
  show applyMaskFold (bgMask img) img.width img.height _ x y = _
  unfold applyMaskFold
  rw [foldMask_at _ _ _ (List.nodup_range _), if_pos ⟨hex_y, hex_x⟩]
  rfl

/-- Claim C9: the flood-fill worklist loop terminates on every finite image:
every marked pixel was enqueued exactly once and every dequeue pops one
queue entry, so `width * height` dequeues of fuel always suffice for the
queue to empty. -/
theorem flood_loop_terminates (img : Img) :
    (floodLoop img (img.width * img.height) (seedState img)).isSome = true :=
  floodLoop_isSome img _ _ (le_of_eq (seed_inv img).2)

/-- Claim C1: `remove_border_background` marks a pixel background only if it is
reachable from a canvas-border pixel through a chain of 4-adjacent
near-white pixels; consequently every in-bounds pixel not so reachable
keeps alpha 255 (stays foreground) in the output. -/
theorem background_only_if_border_reachable (img : Img) (x y : ℤ)
    (hx : 0 ≤ x) (hx2 : x < img.width) (hy : 0 ≤ y) (hy2 : y < img.height) :
    ((x, y) ∈ bgMask img → Reach img x y) ∧
      (¬ Reach img x y → ((remove_border_background img).px x y).a = 255) := by
  constructor
  · intro hmem
    exact bgMask_sound hmem
  · intro hnr
    rw [remove_border_px img x y hx hx2 hy hy2]
    show (if (x, y) ∈ bgMask img then 0 else 255) = 255
    rw [if_neg (fun hmem => hnr (bgMask_sound hmem))]

theorem background_only_if_border_reachable_witness :
    (0 : ℤ) ≤ 0 ∧ (0 : ℤ) < blackDot.width ∧ (0 : ℤ) ≤ 0 ∧ (0 : ℤ) < blackDot.height ∧
      (((0, 0) ∈ bgMask blackDot → Reach blackDot 0 0) ∧
        (¬ Reach blackDot 0 0 → ((remove_border_background blackDot).px 0 0).a = 255)) :=
  ⟨by decide, by decide, by decide, by decide,
    background_only_if_border_reachable blackDot 0 0 (by decide) (by decide)
      (by decide) (by decide)⟩

/-- Claim C8: applying the background mask produces an image of the same
dimensions in which masked pixels have alpha 0, all other pixels have
alpha 255, and the colour channels equal the input's at every in-bounds
position. -/
theorem mask_to_alpha_correct (img : Img) (x y : ℤ) (hx : 0 ≤ x) (hx2 : x < img.width)
    (hy : 0 ≤ y) (hy2 : y < img.height) :
    (remove_border_background img).width = img.width ∧
    (remove_border_background img).height = img.height ∧
    ((remove_border_background img).px x y).r = (img.px x y).r ∧
    ((remove_border_background img).px x y).g = (img.px x y).g ∧
    ((remove_border_background img).px x y).b = (img.px x y).b ∧
    ((remove_border_background img).px x y).a
      = (if (x, y) ∈ bgMask img then 0 else 255) := by
  rw [remove_border_px img x y hx hx2 hy hy2]
  exact ⟨rfl, rfl, rfl, rfl, rfl, rfl⟩

theorem mask_to_alpha_correct_witness :
    (0 : ℤ) ≤ 1 ∧ (1 : ℤ) < whiteSquare.width ∧ (0 : ℤ) ≤ 0 ∧
      (0 : ℤ) < whiteSquare.height ∧
      ((remove_border_background whiteSquare).width = whiteSquare.width ∧
        (remove_border_background whiteSquare).height = whiteSquare.height ∧
        ((remove_border_background whiteSquare).px 1 0).r = (whiteSquare.px 1 0).r ∧
        ((remove_border_background whiteSquare).px 1 0).g = (whiteSquare.px 1 0).g ∧
        ((remove_border_background whiteSquare).px 1 0).b = (whiteSquare.px 1 0).b ∧
        ((remove_border_background whiteSquare).px 1 0).a
          = (if ((1 : ℤ), (0 : ℤ)) ∈ bgMask whiteSquare then 0 else 255)) :=
  ⟨by decide, by decide, by decide, by decide,
    mask_to_alpha_correct whiteSquare 1 0 (by decide) (by decide) (by decide) (by decide)⟩

theorem mem_contentCols {img : Img} {x : ℕ} :
    x ∈ contentCols img ↔
      x < img.width ∧ ∃ y, y < img.height ∧ (img.px (x : ℤ) (y : ℤ)).a ≠ 0 := by
  simp [contentCols, Finset.mem_filter, Finset.mem_range]

theorem mem_contentRows {img : Img} {y : ℕ} :
    y ∈ contentRows img ↔
      y < img.height ∧ ∃ x, x < img.width ∧ (img.px (x : ℤ) (y : ℤ)).a ≠ 0 := by
  simp [contentRows, Finset.mem_filter, Finset.mem_range]

theorem contentRows_nonempty_iff {img : Img} :
    (contentRows img).Nonempty ↔ (contentCols img).Nonempty := by
  constructor
  · rintro ⟨y, hy⟩
    obtain ⟨hyh, x, hxw, hpx⟩ := mem_contentRows.mp hy
    exact ⟨x, mem_contentCols.mpr ⟨hxw, y, hyh, hpx⟩⟩
  · rintro ⟨x, hx⟩
    obtain ⟨hxw, y, hyh, hpx⟩ := mem_contentCols.mp hx
    exact ⟨y, mem_contentRows.mpr ⟨hyh, x, hxw, hpx⟩⟩

theorem getbbox_of_nonempty {img : Img} (hc : (contentCols img).Nonempty)
    (hr : (contentRows img).Nonempty) :
    getbbox img = some ((contentCols img).min' hc, (contentRows img).min' hr,
      (contentCols img).max' hc + 1, (contentRows img).max' hr + 1) := by
  rw [getbbox, dif_pos hc, dif_pos hr]

theorem getbbox_none {img : Img} (hc : ¬ (contentCols img).Nonempty) :
    getbbox img = none := by
  rw [getbbox, dif_neg hc]

theorem crop_alpha_of_nonempty {img : Img} (pad : ℕ) (hc : (contentCols img).Nonempty)
    (hr : (contentRows img).Nonempty) :
    crop_alpha img pad
      = crop img ((contentCols img).min' hc - pad) ((contentRows img).min' hr - pad)
          (min img.width ((contentCols img).max' hc + 1 + pad))
          (min img.height ((contentRows img).max' hr + 1 + pad)) := by
  rw [crop_alpha, getbbox_of_nonempty hc hr]

theorem mem_contentCols_crop {img : Img} {L T R B : ℕ} {x : ℕ} :
    x ∈ contentCols (crop img L T R B) ↔
      x < R - L ∧ ∃ y, y < B - T ∧
        (img.px ((L : ℤ) + (x : ℤ)) ((T : ℤ) + (y : ℤ))).a ≠ 0 :=
  mem_contentCols

theorem mem_contentRows_crop {img : Img} {L T R B : ℕ} {y : ℕ} :
    y ∈ contentRows (crop img L T R B) ↔
      y < B - T ∧ ∃ x, x < R - L ∧
        (img.px ((L : ℤ) + (x : ℤ)) ((T : ℤ) + (y : ℤ))).a ≠ 0 :=
  mem_contentRows

theorem crop_alpha_dims_stable (img : Img) (pad : ℕ) :
    (crop_alpha (crop_alpha img pad) pad).width = (crop_alpha img pad).width ∧
    (crop_alpha (crop_alpha img pad) pad).height = (crop_alpha img pad).height := by
  by_cases hc : (contentCols img).Nonempty
  · have hr : (contentRows img).Nonempty := contentRows_nonempty_iff.mpr hc
    set l := (contentCols img).min' hc with hl
    set rmx := (contentCols img).max' hc with hrmx
    set t := (contentRows img).min' hr with ht
    set bmx := (contentRows img).max' hr with hbmx
    set L := l - pad with hL
    set T := t - pad with hT
    set R := min img.width (rmx + 1 + pad) with hR
    set B := min img.height (bmx + 1 + pad) with hB
    have hca : crop_alpha img pad = crop img L T R B := crop_alpha_of_nonempty pad hc hr
    have hlw : l < img.width := (mem_contentCols.mp ((contentCols img).min'_mem hc)).1
    have hrw : rmx < img.width := (mem_contentCols.mp ((contentCols img).max'_mem hc)).1
    have hth : t < img.height := (mem_contentRows.mp ((contentRows img).min'_mem hr)).1
    have hbh : bmx < img.height := (mem_contentRows.mp ((contentRows img).max'_mem hr)).1
    have hlr : l ≤ rmx := Finset.min'_le _ _ ((contentCols img).max'_mem hc)
    have htb : t ≤ bmx := Finset.min'_le _ _ ((contentRows img).max'_mem hr)
    have hcolsub : ∀ x₀ ∈ contentCols img,
        (x₀ - L) ∈ contentCols (crop img L T R B) := by
      intro x₀ hx₀
      obtain ⟨hx₀w, y₀, hy₀h, hpx⟩ := mem_contentCols.mp hx₀
      have hy₀r : y₀ ∈ contentRows img := mem_contentRows.mpr ⟨hy₀h, x₀, hx₀w, hpx⟩
      have hty : t ≤ y₀ := Finset.min'_le _ _ hy₀r
      have hyb : y₀ ≤ bmx := Finset.le_max' _ _ hy₀r
      have hxl : l ≤ x₀ := Finset.min'_le _ _ hx₀
      have hxr : x₀ ≤ rmx := Finset.le_max' _ _ hx₀
      rw [mem_contentCols_crop]
      refine ⟨by omega, y₀ - T, by omega, ?_⟩
      have e1 : (L : ℤ) + ((x₀ - L : ℕ) : ℤ) = (x₀ : ℤ) := by omega
      have e2 : (T : ℤ) + ((y₀ - T : ℕ) : ℤ) = (y₀ : ℤ) := by omega
      rw [e1, e2]
      exact hpx
    have hrowsub : ∀ y₀ ∈ contentRows img,
        (y₀ - T) ∈ contentRows (crop img L T R B) := by
      intro y₀ hy₀
      obtain ⟨hy₀h, x₀, hx₀w, hpx⟩ := mem_contentRows.mp hy₀
      have hx₀c : x₀ ∈ contentCols img := mem_contentCols.mpr ⟨hx₀w, y₀, hy₀h, hpx⟩
      have hxl : l ≤ x₀ := Finset.min'_le _ _ hx₀c
      have hxr : x₀ ≤ rmx := Finset.le_max' _ _ hx₀c
      have hty : t ≤ y₀ := Finset.min'_le _ _ hy₀
      have hyb : y₀ ≤ bmx := Finset.le_max' _ _ hy₀
      rw [mem_contentRows_crop]
      refine ⟨by omega, x₀ - L, by omega, ?_⟩
      have e1 : (L : ℤ) + ((x₀ - L : ℕ) : ℤ) = (x₀ : ℤ) := by omega
      have e2 : (T : ℤ) + ((y₀ - T : ℕ) : ℤ) = (y₀ : ℤ) := by omega
      rw [e1, e2]
      exact hpx
    have hcolmem : ∀ x₁ ∈ contentCols (crop img L T R B),
        l - L ≤ x₁ ∧ x₁ ≤ rmx - L := by
      intro x₁ hx₁
      rw [mem_contentCols_crop] at hx₁
      obtain ⟨hx₁R, y₁, hy₁B, hpx⟩ := hx₁
      have hmem : (L + x₁) ∈ contentCols img := by
        rw [mem_contentCols]
        refine ⟨by omega, T + y₁, by omega, ?_⟩
        have e1 : ((L + x₁ : ℕ) : ℤ) = (L : ℤ) + (x₁ : ℤ) := by push_cast; ring
        have e2 : ((T + y₁ : ℕ) : ℤ) = (T : ℤ) + (y₁ : ℤ) := by push_cast; ring
        rw [e1, e2]
        exact hpx
      have h1 : l ≤ L + x₁ := Finset.min'_le _ _ hmem
      have h2 : L + x₁ ≤ rmx := Finset.le_max' _ _ hmem
      exact ⟨by omega, by omega⟩
    have hrowmem : ∀ y₁ ∈ contentRows (crop img L T R B),
        t - T ≤ y₁ ∧ y₁ ≤ bmx - T := by
      intro y₁ hy₁
      rw [mem_contentRows_crop] at hy₁
      obtain ⟨hy₁B, x₁, hx₁R, hpx⟩ := hy₁
      have hmem : (T + y₁) ∈ contentRows img := by
        rw [mem_contentRows]
        refine ⟨by omega, L + x₁, by omega, ?_⟩
        have e1 : ((L + x₁ : ℕ) : ℤ) = (L : ℤ) + (x₁ : ℤ) := by push_cast; ring
        have e2 : ((T + y₁ : ℕ) : ℤ) = (T : ℤ) + (y₁ : ℤ) := by push_cast; ring
        rw [e1, e2]
        exact hpx
      have h1 : t ≤ T + y₁ := Finset.min'_le _ _ hmem
      have h2 : T + y₁ ≤ bmx := Finset.le_max' _ _ hmem
      exact ⟨by omega, by omega⟩
    have hc2 : (contentCols (crop img L T R B)).Nonempty :=
      ⟨l - L, hcolsub l ((contentCols img).min'_mem hc)⟩
    have hr2 : (contentRows (crop img L T R B)).Nonempty :=
      ⟨t - T, hrowsub t ((contentRows img).min'_mem hr)⟩
    have hmin2 : (contentCols (crop img L T R B)).min' hc2 = l - L :=
      le_antisymm (Finset.min'_le _ _ (hcolsub l ((contentCols img).min'_mem hc)))
        (Finset.le_min' _ _ _ (fun x₁ hx₁ => (hcolmem x₁ hx₁).1))
    have hmax2 : (contentCols (crop img L T R B)).max' hc2 = rmx - L :=
      le_antisymm (Finset.max'_le _ _ _ (fun x₁ hx₁ => (hcolmem x₁ hx₁).2))
        (Finset.le_max' _ _ (hcolsub rmx ((contentCols img).max'_mem hc)))
    have hminr2 : (contentRows (crop img L T R B)).min' hr2 = t - T :=
      le_antisymm (Finset.min'_le _ _ (hrowsub t ((contentRows img).min'_mem hr)))
        (Finset.le_min' _ _ _ (fun y₁ hy₁ => (hrowmem y₁ hy₁).1))
    have hmaxr2 : (contentRows (crop img L T R B)).max' hr2 = bmx - T :=
      le_antisymm (Finset.max'_le _ _ _ (fun y₁ hy₁ => (hrowmem y₁ hy₁).2))
        (Finset.le_max' _ _ (hrowsub bmx ((contentRows img).max'_mem hr)))
    rw [hca, crop_alpha_of_nonempty pad hc2 hr2, hmin2, hmax2, hminr2, hmaxr2]
    simp only [crop]
    constructor
    · omega
    · omega
  · have h1 : crop_alpha img pad = img := by rw [crop_alpha, getbbox_none hc]
    rw [h1, h1]
    exact ⟨rfl, rfl⟩

/-- Claim C6: crop-to-content with its fixed padding is idempotent: re-applying
`crop_alpha` to its own output yields an image of the same dimensions, so
a second bounding-box measurement shrinks nothing. -/
theorem crop_to_content_idempotent (img : Img) :
    (crop_alpha (crop_alpha img 2) 2).width = (crop_alpha img 2).width ∧
    (crop_alpha (crop_alpha img 2) 2).height = (crop_alpha img 2).height :=
  crop_alpha_dims_stable img 2

/-- Claim C7: when the image has no non-transparent pixel, `crop_alpha` returns
the original image unmodified (same dimensions and pixels), instead of
failing or producing an empty crop. -/
theorem crop_alpha_empty_foreground (img : Img)
    (h : ∀ x y : ℤ, 0 ≤ x → x < img.width → 0 ≤ y → y < img.height →
      (img.px x y).a = 0) :
    crop_alpha img 2 = img := by
  have hc : ¬ (contentCols img).Nonempty := by
    rintro ⟨x, hx⟩
    obtain ⟨hxw, y, hyh, hpx⟩ := mem_contentCols.mp hx
    exact hpx (h (x : ℤ) (y : ℤ) (Int.natCast_nonneg x) (by exact_mod_cast hxw)
      (Int.natCast_nonneg y) (by exact_mod_cast hyh))
  rw [crop_alpha, getbbox_none hc]

theorem crop_alpha_empty_foreground_witness :
    (∀ x y : ℤ, 0 ≤ x → x < clearImg.width → 0 ≤ y → y < clearImg.height →
      (clearImg.px x y).a = 0) ∧ crop_alpha clearImg 2 = clearImg :=
  ⟨fun _ _ _ _ _ _ => rfl,
    crop_alpha_empty_foreground clearImg (fun _ _ _ _ _ _ => rfl)⟩

theorem bitLenAux_zero (fuel : ℕ) : bitLenAux fuel 0 = 0 := by
  cases fuel
  · rfl
  · rfl

theorem bitLenAux_spec : ∀ fuel n : ℕ, 1 ≤ n → n ≤ fuel →
    2 ^ (bitLenAux fuel n - 1) ≤ n ∧ n < 2 ^ bitLenAux fuel n := by
  intro fuel
  induction fuel with
  | zero => intro n h1 h2; omega
  | succ fuel ih =>
      intro n h1 h2
      have heq : bitLenAux (fuel + 1) n = bitLenAux fuel (n / 2) + 1 := by
        show (if n = 0 then 0 else bitLenAux fuel (n / 2) + 1) = _
        rw [if_neg (by omega)]
      rw [heq]
      by_cases hn : n = 1
      · subst hn
        rw [show (1 : ℕ) / 2 = 0 from rfl, bitLenAux_zero]
        norm_num
      · have h1' : 1 ≤ n / 2 := by omega
        have h2' : n / 2 ≤ fuel := by omega
        obtain ⟨ha, hb⟩ := ih (n / 2) h1' h2'
        have hk1 : 1 ≤ bitLenAux fuel (n / 2) := by
          rcases Nat.eq_zero_or_pos (bitLenAux fuel (n / 2)) with hk | hk
          · rw [hk, pow_zero] at hb
            omega
          · exact hk
        have hp1 : 2 ^ bitLenAux fuel (n / 2)
            = 2 ^ (bitLenAux fuel (n / 2) - 1) * 2 := by
          rw [← pow_succ]
          congr 1
          omega
        have hp2 : 2 ^ (bitLenAux fuel (n / 2) + 1)
            = 2 ^ bitLenAux fuel (n / 2) * 2 := by
          rw [pow_succ]
        simp only [Nat.add_sub_cancel]
        omega

theorem bitLen_spec (n : ℕ) (h1 : 1 ≤ n) :
    2 ^ (bitLen n - 1) ≤ n ∧ n < 2 ^ bitLen n :=
  bitLenAux_spec n n h1 (le_refl n)

theorem bitLen_lt (n K : ℕ) (h : n < 2 ^ K) : bitLen n ≤ K := by
  by_cases h0 : n = 0
  · subst h0
    rw [bitLen, bitLenAux_zero]
    omega
  · obtain ⟨ha, -⟩ := bitLen_spec n (by omega)
    by_contra hK
    push_neg at hK
    have hle : 2 ^ K ≤ 2 ^ (bitLen n - 1) :=
      Nat.pow_le_pow_right (by norm_num) (by omega)
    omega

theorem rneDiv_le (a b : ℕ) : rneDiv a b ≤ a / b + 1 := by
  simp only [rneDiv]
  generalize a / b = q
  split_ifs <;> omega

theorem rneDiv_bracket (a b : ℕ) (hb : 1 ≤ b) :
    2 * a ≤ 2 * (b * rneDiv a b) + b ∧ 2 * (b * rneDiv a b) ≤ 2 * a + b := by
  have hmod : b * (a / b) + a % b = a := Nat.div_add_mod a b
  have hm : a % b < b := Nat.mod_lt a (by omega)
  simp only [rneDiv]
  split_ifs with c1 c2 c3
  · generalize hbq : b * (a / b) = t at hmod ⊢
    generalize hrr : a % b = r at hmod hm c1
    omega
  · rw [Nat.mul_add, Nat.mul_one]
    generalize hbq : b * (a / b) = t at hmod ⊢
    generalize hrr : a % b = r at hmod hm c1 c2
    omega
  · generalize hbq : b * (a / b) = t at hmod ⊢
    generalize hrr : a % b = r at hmod hm c1 c2
    omega
  · rw [Nat.mul_add, Nat.mul_one]
    generalize hbq : b * (a / b) = t at hmod ⊢
    generalize hrr : a % b = r at hmod hm c1 c2 c3
    omega

theorem floor_nat_div (a b : ℕ) (hb : 1 ≤ b) :
    ⌊(a : ℚ) / (b : ℚ)⌋ = ((a / b : ℕ) : ℤ) := by
  have hb0 : (0 : ℚ) < (b : ℚ) := by exact_mod_cast hb
  have hmod : b * (a / b) + a % b = a := Nat.div_add_mod a b
  have hm : a % b < b := Nat.mod_lt a (by omega)
  have hfact : a < (a / b + 1) * b := by
    calc a = b * (a / b) + a % b := hmod.symm
      _ < b * (a / b) + b := by omega
      _ = (a / b + 1) * b := by ring
  rw [Int.floor_eq_iff]
  constructor
  · rw [le_div_iff₀ hb0]
    exact_mod_cast Nat.div_mul_le_self a b
  · rw [div_lt_iff₀ hb0]
    exact_mod_cast hfact

theorem floor_div_bracket (a c : ℕ) (x : ℚ) (hc : 1 ≤ c)
    (hlo : x - 1 ≤ (a : ℚ) / (c : ℚ)) (hhi : (a : ℚ) / (c : ℚ) ≤ x + 1) :
    ⌊x⌋ - 1 ≤ ((a / c : ℕ) : ℤ) ∧ ((a / c : ℕ) : ℤ) ≤ ⌊x⌋ + 1 := by
  rw [← floor_nat_div a c hc]
  constructor
  · have h1 : ⌊x - 1⌋ ≤ ⌊(a : ℚ) / (c : ℚ)⌋ := Int.floor_le_floor hlo
    have h2 : ⌊x - 1⌋ = ⌊x⌋ - 1 := by
      simp
    omega
  · have h1 : ⌊(a : ℚ) / (c : ℚ)⌋ ≤ ⌊x + 1⌋ := Int.floor_le_floor hhi
    have h2 : ⌊x + 1⌋ = ⌊x⌋ + 1 := by
      simp
    omega

set_option maxHeartbeats 1600000 in
theorem py_scaled_width_bracket (w h : ℕ) (hh : 0 < h) (hw31 : w ≤ 2 ^ 31)
    (hh31 : h ≤ 2 ^ 31) :
    ⌊((w * TARGET_H : ℕ) : ℚ) / (h : ℚ)⌋ - 1 ≤ (py_scaled_width w h : ℤ) ∧
      (py_scaled_width w h : ℤ) ≤ ⌊((w * TARGET_H : ℕ) : ℚ) / (h : ℚ)⌋ + 1 := by
  have hh1 : 1 ≤ h := hh
  have hh0 : (0 : ℚ) < (h : ℚ) := by exact_mod_cast hh
  have ht1 : 1 ≤ 30 * 2 ^ 64 / h := by
    rw [Nat.one_le_div_iff hh]
    calc h ≤ 2 ^ 31 := hh31
      _ ≤ 30 * 2 ^ 64 := by norm_num
  have htup : 30 * 2 ^ 64 / h < 2 ^ 69 :=
    lt_of_le_of_lt (Nat.div_le_self _ _) (by norm_num)
  obtain ⟨B, hBdef⟩ : ∃ B : ℕ, bitLen (30 * 2 ^ 64 / h) = B := ⟨_, rfl⟩
  have hB69 : B ≤ 69 := by
    rw [← hBdef]
    exact bitLen_lt _ _ htup
  have hB1 : 1 ≤ B := by
    obtain ⟨-, hBhi⟩ := bitLen_spec _ ht1
    rw [hBdef] at hBhi
    rcases Nat.eq_zero_or_pos B with hk | hk
    · rw [hk, pow_zero] at hBhi
      omega
    · exact hk
  obtain ⟨s, hsdef⟩ : ∃ s : ℕ, 117 - B = s := ⟨_, rfl⟩
  have hs48 : 48 ≤ s := by omega
  have hs_toNat : Int.toNat (52 - ((B : ℤ) - 65)) = s := by omega
  obtain ⟨m, hmdef⟩ : ∃ m : ℕ, rneDiv (30 * 2 ^ s) h = m := ⟨_, rfl⟩
  have hfd : floatDivB64 TARGET_H h = (m, (B : ℤ) - 65) := by
    have step : floatDivB64 TARGET_H h
        = (rneDiv (30 * 2 ^ Int.toNat (52 - ((B : ℤ) - 65))) h, (B : ℤ) - 65) := by
      show (rneDiv (30 * 2 ^ Int.toNat (52 - ((bitLen (30 * 2 ^ 64 / h) : ℤ) - 65))) h,
          (bitLen (30 * 2 ^ 64 / h) : ℤ) - 65) = _
      rw [hBdef]
    rw [step, hs_toNat, hmdef]
  have hmb := rneDiv_bracket (30 * 2 ^ s) h hh1
  rw [hmdef] at hmb
  obtain ⟨hmb1, hmb2⟩ := hmb
  have hm_le : m ≤ 30 * 2 ^ s + 1 := by
    have hle1 := rneDiv_le (30 * 2 ^ s) h
    rw [hmdef] at hle1
    have hle2 := Nat.div_le_self (30 * 2 ^ s) h
    omega
  have hPbound : w * m < 2 ^ (s + 37) := by
    have h1 : w * m ≤ 2 ^ 31 * (30 * 2 ^ s + 1) := Nat.mul_le_mul hw31 hm_le
    have e1 : (2 : ℕ) ^ (s + 37) = 2 ^ s * 2 ^ 31 * 64 := by ring
    have e2 : (2 : ℕ) ^ 31 * (30 * 2 ^ s + 1) = 30 * (2 ^ s * 2 ^ 31) + 2 ^ 31 := by
      ring
    have h31s : (2 : ℕ) ^ 31 ≤ 2 ^ s * 2 ^ 31 :=
      Nat.le_mul_of_pos_left _ (Nat.pos_pow_of_pos s (by norm_num))
    omega
  obtain ⟨L, hLdef⟩ : ∃ L : ℕ, bitLen (w * m) = L := ⟨_, rfl⟩
  have hLle : L ≤ s + 37 := by
    rw [← hLdef]
    exact bitLen_lt _ _ hPbound
  have hxcast : ((w * TARGET_H : ℕ) : ℚ) = (w : ℚ) * 30 := by
    push_cast [TARGET_H]
    ring
  have hq1 : 2 * (30 * (2 : ℚ) ^ s) ≤ 2 * ((h : ℚ) * m) + h := by exact_mod_cast hmb1
  have hq2 : 2 * ((h : ℚ) * m) ≤ 2 * (30 * (2 : ℚ) ^ s) + h := by exact_mod_cast hmb2
  have hwQ : (w : ℚ) ≤ 2 ^ s := by
    calc (w : ℚ) ≤ 2 ^ 31 := by exact_mod_cast hw31
      _ ≤ 2 ^ s := by
        apply pow_le_pow_right₀ (by norm_num)
        omega
  have fA := mul_le_mul_of_nonneg_left hq1 (Nat.cast_nonneg w)
  have fA2 := mul_le_mul_of_nonneg_left hq2 (Nat.cast_nonneg w)
  have fB : (w : ℚ) * h ≤ 2 ^ s * h :=
    mul_le_mul_of_nonneg_right hwQ (Nat.cast_nonneg h)
  have hps2s : (0 : ℚ) < (2 : ℚ) ^ s := pow_pos (by norm_num) s
  have hpsNat : (0 : ℚ) < ((2 ^ s : ℕ) : ℚ) := by
    exact_mod_cast Nat.pos_pow_of_pos s (by norm_num)
  have hsub : ((w : ℚ) * 30) / h - 1 = ((w : ℚ) * 30 - h) / h := by
    field_simp
  have hadd : ((w : ℚ) * 30) / h + 1 = ((w : ℚ) * 30 + h) / h := by
    field_simp
  by_cases hL53 : L ≤ 53
  · have hml : floatMulB64 w m ((B : ℤ) - 65) = (w * m, (B : ℤ) - 65) := by
      simp only [floatMulB64]
      rw [hLdef, if_pos hL53]
    have hpy : py_scaled_width w h = w * m / 2 ^ s := by
      simp only [py_scaled_width]
      rw [hfd]
      dsimp only
      rw [hml]
      dsimp only
      simp only [truncB64]
      rw [if_neg (by omega), hs_toNat]
    have hlo : ((w : ℚ) * 30) / h - 1 ≤ ((w * m : ℕ) : ℚ) / ((2 ^ s : ℕ) : ℚ) := by
      rw [hsub, div_le_div_iff₀ hh0 hpsNat]
      push_cast
      linarith [fA, fB]
    have hhi : ((w * m : ℕ) : ℚ) / ((2 ^ s : ℕ) : ℚ) ≤ ((w : ℚ) * 30) / h + 1 := by
      rw [hadd, div_le_div_iff₀ hpsNat hh0]
      push_cast
      linarith [fA2, fB]
    have hmain := floor_div_bracket (w * m) (2 ^ s) (((w * TARGET_H : ℕ) : ℚ) / h)
      Nat.one_le_two_pow (by rw [hxcast]; exact hlo) (by rw [hxcast]; exact hhi)
    rw [hpy]
    exact hmain
  · push_neg at hL53
    obtain ⟨s2, hs2def⟩ : ∃ s2 : ℕ, s - (L - 53) = s2 := ⟨_, rfl⟩
    have hL54 : 54 ≤ L := by omega
    have hs2_16 : 16 ≤ s2 := by omega
    have hsplit : s2 + (L - 53) = s := by omega
    obtain ⟨m2, hm2def⟩ : ∃ m2 : ℕ, rneDiv (w * m) (2 ^ (L - 53)) = m2 := ⟨_, rfl⟩
    have hml : floatMulB64 w m ((B : ℤ) - 65)
        = (m2, ((B : ℤ) - 65) + ((L - 53 : ℕ) : ℤ)) := by
      simp only [floatMulB64]
      rw [hLdef, if_neg (by omega), hm2def]
    have hs2_toNat : Int.toNat (52 - (((B : ℤ) - 65) + ((L - 53 : ℕ) : ℤ))) = s2 := by
      omega
    have hpy : py_scaled_width w h = m2 / 2 ^ s2 := by
      simp only [py_scaled_width]
      rw [hfd]
      dsimp only
      rw [hml]
      dsimp only
      simp only [truncB64]
      rw [if_neg (by omega), hs2_toNat]
    have hmc := rneDiv_bracket (w * m) (2 ^ (L - 53)) Nat.one_le_two_pow
    rw [hm2def] at hmc
    obtain ⟨hc1, hc2⟩ := hmc
    have hq3 : 2 * ((w : ℚ) * m) ≤ 2 * ((2 : ℚ) ^ (L - 53) * m2) + 2 ^ (L - 53) := by
      exact_mod_cast hc1
    have hq4 : 2 * ((2 : ℚ) ^ (L - 53) * m2) ≤ 2 * ((w : ℚ) * m) + 2 ^ (L - 53) := by
      exact_mod_cast hc2
    have fC := mul_le_mul_of_nonneg_left hq3 (Nat.cast_nonneg h)
    have fC2 := mul_le_mul_of_nonneg_left hq4 (Nat.cast_nonneg h)
    have hLs : (2 : ℚ) ^ (L - 53) ≤ 2 ^ s := by
      apply pow_le_pow_right₀ (by norm_num)
      omega
    have fD : (h : ℚ) * 2 ^ (L - 53) ≤ (h : ℚ) * 2 ^ s :=
      mul_le_mul_of_nonneg_left hLs (Nat.cast_nonneg h)
    have hpow_split : (2 : ℚ) ^ s = 2 ^ s2 * 2 ^ (L - 53) := by
      rw [← pow_add, hsplit]
    have hvv : ((m2 : ℚ) * 2 ^ (L - 53)) / ((2 : ℚ) ^ s) = (m2 : ℚ) / (2 : ℚ) ^ s2 := by
      rw [hpow_split, mul_div_mul_right _ _ (pow_pos (by norm_num : (0 : ℚ) < 2) (L - 53)).ne']
    have hcastpow : ((2 ^ s2 : ℕ) : ℚ) = (2 : ℚ) ^ s2 := by
      push_cast
      ring
    have hlo : ((w : ℚ) * 30) / h - 1 ≤ ((m2 : ℕ) : ℚ) / ((2 ^ s2 : ℕ) : ℚ) := by
      rw [hcastpow, ← hvv, hsub, div_le_div_iff₀ hh0 hps2s]
      linarith [fA, fB, fC, fD]
    have hhi : ((m2 : ℕ) : ℚ) / ((2 ^ s2 : ℕ) : ℚ) ≤ ((w : ℚ) * 30) / h + 1 := by
      rw [hcastpow, ← hvv, hadd, div_le_div_iff₀ hps2s hh0]
      linarith [fA2, fB, fC2, fD]
    have hmain := floor_div_bracket m2 (2 ^ s2) (((w * TARGET_H : ℕ) : ℚ) / h)
      Nat.one_le_two_pow (by rw [hxcast]; exact hlo) (by rw [hxcast]; exact hhi)
    rw [hpy]
    exact hmain

/-- Claim C2, counterexample: at source size 1×8 the code computes width
`int(1 * (30 / 8)) = 3` (the float computation is exact there), while the
claimed `round(1 × 30 / 8) = 4`: the scaler truncates the float product,
it does not round to nearest. At 11×11 the binary64 product
`11 * (30 / 11) = 29.999999999999996` truncates to 29, below even the
exact `⌊11 × 30 / 11⌋ = 30`. -/
theorem scaled_width_truncates_not_rounds :
    prep_sprite_size 1 8 = Except.ok (3, 30) ∧ spec_scaled_width 1 8 = 4 ∧
      scaled_width 1 8 ≠ spec_scaled_width 1 8 ∧
      scaled_width 11 11 = 29 ∧ spec_scaled_width 11 11 = 30 ∧
      max 1 (Int.toNat ⌊((11 * 30 : ℕ) : ℚ) / ((11 : ℕ) : ℚ)⌋) = 30 := by
  have h1 : scaled_width 1 8 = 3 := by decide
  have h2 : spec_scaled_width 1 8 = 4 := by
    norm_num [spec_scaled_width, TARGET_H, round_eq]
    rfl
  have h3 : scaled_width 11 11 = 29 := by decide
  have h4 : spec_scaled_width 11 11 = 30 := by
    norm_num [spec_scaled_width, TARGET_H, round_eq]
    rfl
  refine ⟨?_, h2, ?_, h3, h4, ?_⟩
  · rw [prep_sprite_size, if_neg (by decide : ¬ (8 : ℕ) = 0), h1]
    rfl
  · rw [h1, h2]
    decide
  · norm_num
    rfl

/-- Claim C2, amended: for positive source height the scaler's output
height is exactly `TARGET_H` = 30 and its width is
`max(1, int(W * (30 / H)))` evaluated in binary64 arithmetic — truncation
of the correctly rounded float product, not `round(W × 30 / H)`; for
sizes up to `2 ^ 31` this width lies within 1 pixel of `⌊W × 30 / H⌋`. -/
theorem scaled_size_spec (w h : ℕ) (hh : 0 < h) (hw31 : w ≤ 2 ^ 31)
    (hh31 : h ≤ 2 ^ 31) :
    prep_sprite_size w h = Except.ok (max 1 (py_scaled_width w h), TARGET_H) ∧
      ⌊((w * TARGET_H : ℕ) : ℚ) / (h : ℚ)⌋ - 1 ≤ (py_scaled_width w h : ℤ) ∧
      (py_scaled_width w h : ℤ) ≤ ⌊((w * TARGET_H : ℕ) : ℚ) / (h : ℚ)⌋ + 1 := by
  refine ⟨by rw [prep_sprite_size, if_neg (by omega : ¬ h = 0)]; rfl, ?_, ?_⟩
  · exact (py_scaled_width_bracket w h hh hw31 hh31).1
  · exact (py_scaled_width_bracket w h hh hw31 hh31).2

theorem scaled_size_spec_witness :
    0 < 8 ∧ (1 : ℕ) ≤ 2 ^ 31 ∧ (8 : ℕ) ≤ 2 ^ 31 ∧
      (prep_sprite_size 1 8 = Except.ok (max 1 (py_scaled_width 1 8), TARGET_H) ∧
        ⌊((1 * TARGET_H : ℕ) : ℚ) / ((8 : ℕ) : ℚ)⌋ - 1 ≤ (py_scaled_width 1 8 : ℤ) ∧
        (py_scaled_width 1 8 : ℤ) ≤ ⌊((1 * TARGET_H : ℕ) : ℚ) / ((8 : ℕ) : ℚ)⌋ + 1) :=
  ⟨by decide, by norm_num, by norm_num,
    scaled_size_spec 1 8 (by decide) (by norm_num) (by norm_num)⟩

/-- Claim C3, counterexample: with source height 0 the scaler fails with Python's
uncaught `ZeroDivisionError`, not with the specification's
`DegenerateImage` error. -/
theorem scaler_zero_height_not_degenerate :
    prep_sprite_size 5 0 = Except.error ScaleError.zeroDivisionError ∧
      prep_sprite_size 5 0 ≠ Except.error ScaleError.degenerateImage := by
  refine ⟨rfl, ?_⟩
  intro hcontra
  rw [show prep_sprite_size 5 0 = Except.error ScaleError.zeroDivisionError from rfl] at hcontra
  injection hcontra with h2
  exact ScaleError.noConfusion h2

/-- Claim C3, amended: a zero-height input makes the scaler raise an uncaught
raw `ZeroDivisionError` while evaluating `TARGET_H / height`; the code has
no `DegenerateImage` handling. -/
theorem scaler_zero_height_zero_division (w : ℕ) :
    prep_sprite_size w 0 = Except.error ScaleError.zeroDivisionError := rfl

theorem base_x_eq (sprite : Img) : base_x sprite = (32 - (sprite.width : ℤ)) / 2 := rfl

theorem base_y_eq (sprite : Img) : base_y sprite = 32 - (sprite.height : ℤ) := rfl

theorem alpha_composite_at_ok {base overlay : Img} {dx dy : ℤ}
    (hx : 0 ≤ dx) (hy : 0 ≤ dy) :
    alpha_composite_at base overlay dx dy = Except.ok ⟨base.width, base.height, fun x y =>
      if dx ≤ x ∧ x < dx + overlay.width ∧ dy ≤ y ∧ y < dy + overlay.height ∧
          x < base.width ∧ y < base.height
      then alpha_over (overlay.px (x - dx) (y - dy)) (base.px x y)
      else base.px x y⟩ := by
  rw [alpha_composite_at, if_neg (by omega)]

theorem composeFrame_ok (sprite : Img) (dx dy : ℤ)
    (hx : 0 ≤ base_x sprite + dx) (hy : 0 ≤ base_y sprite + dy) :
    ∃ frame : Img, composeFrame sprite (dx, dy) = Except.ok frame ∧
      frame.width = 32 ∧ frame.height = 32 := by
  have hc1 := @alpha_composite_at_ok emptyCanvas (shadow_img dx) 0 0 (le_refl 0) (le_refl 0)
  simp only [composeFrame, hc1]
  rw [alpha_composite_at_ok hx hy]
  exact ⟨_, rfl, rfl, rfl⟩

theorem alpha_over_shadowColor : alpha_over shadowColor ⟨0, 0, 0, 0⟩ = shadowColor := by
  decide

theorem alpha_over_clear : alpha_over ⟨0, 0, 0, 0⟩ ⟨0, 0, 0, 0⟩ = ⟨0, 0, 0, 0⟩ := by
  decide

theorem shadow_over_transparent (d x y : ℤ) :
    alpha_over ((shadow_img d).px x y) ⟨0, 0, 0, 0⟩ = (shadow_img d).px x y := by
  show alpha_over
      (if in_ellipse (10 + d) 27 (22 + d) 31 x y then shadowColor else ⟨0, 0, 0, 0⟩)
      ⟨0, 0, 0, 0⟩
    = if in_ellipse (10 + d) 27 (22 + d) 31 x y then shadowColor else ⟨0, 0, 0, 0⟩
  by_cases he : in_ellipse (10 + d) 27 (22 + d) 31 x y = true
  · rw [if_pos he, alpha_over_shadowColor]
  · rw [if_neg he, alpha_over_clear]

theorem shadow_px_shift (dx x y : ℤ) :
    (shadow_img dx).px x y = (shadow_img 0).px (x - dx) y := by
  show (if in_ellipse (10 + dx) 27 (22 + dx) 31 x y then shadowColor else ⟨0, 0, 0, 0⟩)
    = if in_ellipse (10 + 0) 27 (22 + 0) 31 (x - dx) y then shadowColor else ⟨0, 0, 0, 0⟩
  have he : in_ellipse (10 + dx) 27 (22 + dx) 31 x y
      = in_ellipse (10 + 0) 27 (22 + 0) 31 (x - dx) y := by
    unfold in_ellipse
    rw [decide_eq_decide]
    have e1 : (2 * x - ((10 + dx) + (22 + dx))) ^ 2
        = (2 * (x - dx) - ((10 + 0) + (22 + 0))) ^ 2 := by ring
    have e2 : ((22 + dx) - (10 + dx)) = ((22 + 0) - (10 + 0) : ℤ) := by ring
    rw [e1, e2]
  rw [he]

/-- Claim C4, amended: when the sprite fits the canvas with room for the offsets
(width at most 30, height at most 31) the compositor produces exactly one
frame per entry of the fixed 4-entry offset table, with no error, and
every produced frame is exactly canvas-sized (32 by 32); for wider or
taller sprites the loop instead fails partway with a ValueError, so the
frame count does depend on the sprite size. -/
theorem compose_walk_frames_spec (sprite : Img)
    (hw : sprite.width ≤ 30) (hh : sprite.height ≤ 31) :
    (compose_walk_frames sprite).1.length = 4 ∧
      (compose_walk_frames sprite).2 = none ∧
      ∀ f ∈ (compose_walk_frames sprite).1, f.width = 32 ∧ f.height = 32 := by
  have hbx : 1 ≤ base_x sprite := by
    rw [base_x_eq]
    omega
  have hby : 1 ≤ base_y sprite := by
    rw [base_y_eq]
    omega
  obtain ⟨f0, h0, hw0, hh0⟩ := composeFrame_ok sprite 0 0 (by omega) (by omega)
  obtain ⟨f1, h1, hw1, hh1⟩ := composeFrame_ok sprite 1 (-1) (by omega) (by omega)
  obtain ⟨f3, h3, hw3, hh3⟩ := composeFrame_ok sprite (-1) (-1) (by omega) (by omega)
  have hloop : compose_walk_frames sprite = ([f0, f1, f0, f3], none) := by
    simp only [compose_walk_frames, OFFSETS, composeLoop, h0, h1, h3]
  rw [hloop]
  refine ⟨rfl, rfl, ?_⟩
  intro f hf
  simp only [List.mem_cons, List.not_mem_nil, or_false] at hf
  rcases hf with rfl | rfl | rfl | rfl
  · exact ⟨hw0, hh0⟩
  · exact ⟨hw1, hh1⟩
  · exact ⟨hw0, hh0⟩
  · exact ⟨hw3, hh3⟩

theorem compose_walk_frames_spec_witness :
    sprTest.width ≤ 30 ∧ sprTest.height ≤ 31 ∧
      ((compose_walk_frames sprTest).1.length = 4 ∧
        (compose_walk_frames sprTest).2 = none ∧
        ∀ f ∈ (compose_walk_frames sprTest).1, f.width = 32 ∧ f.height = 32) :=
  ⟨by decide, by decide, compose_walk_frames_spec sprTest (by decide) (by decide)⟩

/-- Claim C4, counterexample: the 33-pixel-wide sprite yields zero frames (its
first paste destination is already negative), not one frame per entry of
the offset table, so the output does depend on the input sprite's size. -/
theorem compose_walk_frames_wide_fails :
    (compose_walk_frames spr33).1.length = 0 ∧
      (compose_walk_frames spr33).1.length ≠ 4 ∧
      (compose_walk_frames spr33).2 = some PasteError.valueError :=
  ⟨by decide, by decide, by decide⟩

/-- Claim C10: the sprite paste destination is non-negative for all four
offsets exactly when the sprite is at most 30 wide and 31 tall; the
31-wide sprite reaches the negative-destination error branch at offset
(-1, -1), so the loop stops with a ValueError after three frames instead
of clipping the sprite. -/
theorem paste_destinations_nonneg_iff :
    (∀ sprite : Img,
      (∀ off ∈ OFFSETS, 0 ≤ base_x sprite + off.1 ∧ 0 ≤ base_y sprite + off.2) ↔
        (sprite.width ≤ 30 ∧ sprite.height ≤ 31)) ∧
      (compose_walk_frames wideSprite).1.length = 3 ∧
      (compose_walk_frames wideSprite).2 = some PasteError.valueError := by
  refine ⟨?_, by decide, by decide⟩
  intro sprite
  constructor
  · intro hall
    have h1 := hall (-1, -1) (by decide)
    have h1x : (0 : ℤ) ≤ base_x sprite + (-1) := h1.1
    have h1y : (0 : ℤ) ≤ base_y sprite + (-1) := h1.2
    rw [base_x_eq] at h1x
    rw [base_y_eq] at h1y
    exact ⟨by omega, by omega⟩
  · rintro ⟨hw, hh⟩ off hoff
    have hbx : 1 ≤ base_x sprite := by
      rw [base_x_eq]
      omega
    have hby : 1 ≤ base_y sprite := by
      rw [base_y_eq]
      omega
    obtain ⟨dx, dy⟩ := off
    simp only [OFFSETS, List.mem_cons, List.not_mem_nil, or_false,
      Prod.mk.injEq] at hoff
    rcases hoff with ⟨rfl, rfl⟩ | ⟨rfl, rfl⟩ | ⟨rfl, rfl⟩ | ⟨rfl, rfl⟩
    · exact ⟨by omega, by omega⟩
    · exact ⟨by omega, by omega⟩
    · exact ⟨by omega, by omega⟩
    · exact ⟨by omega, by omega⟩

theorem shadow_layer_px (dx x y : ℤ) (hx0 : 0 ≤ x) (hx32 : x < 32)
    (hy0 : 0 ≤ y) (hy32 : y < 32) :
    (if (0 : ℤ) ≤ x ∧ x < 0 + (shadow_img dx).width ∧ (0 : ℤ) ≤ y ∧
        y < 0 + (shadow_img dx).height ∧ x < emptyCanvas.width ∧ y < emptyCanvas.height
      then alpha_over ((shadow_img dx).px (x - 0) (y - 0)) (emptyCanvas.px x y)
      else emptyCanvas.px x y)
    = (shadow_img 0).px (x - dx) y := by
  rw [if_pos]
  · rw [sub_zero, sub_zero]
    show alpha_over ((shadow_img dx).px x y) ⟨0, 0, 0, 0⟩ = _
    rw [shadow_over_transparent, shadow_px_shift]
  · refine ⟨hx0, ?_, hy0, ?_, ?_, ?_⟩
    · show x < 0 + (32 : ℤ)
      omega
    · show y < 0 + (32 : ℤ)
      omega
    · show x < ((32 : ℕ) : ℤ)
      omega
    · show y < ((32 : ℕ) : ℤ)
      omega

/-- Claim C5 (amended with the non-negative-destination precondition of C10):
for an offset (dx, dy) of the table whose paste destination is
non-negative, the frame is the sprite alpha-composited at
(base_x + dx, base_y + dy) — with base_x = (32 - width) // 2 and
base_y = 32 - height — over a canvas holding exactly the fixed shadow
shifted horizontally by dx only, everything starting from a fully
transparent canvas. -/
theorem compose_frame_layers (sprite : Img) (dx dy : ℤ) (_hoff : (dx, dy) ∈ OFFSETS)
    (hx : 0 ≤ base_x sprite + dx) (hy : 0 ≤ base_y sprite + dy) :
    ∃ frame : Img, composeFrame sprite (dx, dy) = Except.ok frame ∧
      frame.width = 32 ∧ frame.height = 32 ∧
      ∀ x y : ℤ, 0 ≤ x → x < 32 → 0 ≤ y → y < 32 →
        frame.px x y =
          (if base_x sprite + dx ≤ x ∧ x < base_x sprite + dx + sprite.width ∧
              base_y sprite + dy ≤ y ∧ y < base_y sprite + dy + sprite.height
          then alpha_over
            (sprite.px (x - (base_x sprite + dx)) (y - (base_y sprite + dy)))
            ((shadow_img 0).px (x - dx) y)
          else (shadow_img 0).px (x - dx) y) := by
  have hc1 := @alpha_composite_at_ok emptyCanvas (shadow_img dx) 0 0 (le_refl 0) (le_refl 0)
  simp only [composeFrame, hc1]
  rw [alpha_composite_at_ok hx hy]
  refine ⟨_, rfl, rfl, rfl, ?_⟩
  intro x y hx0 hx32 hy0 hy32
  dsimp only
  rw [shadow_layer_px dx x y hx0 hx32 hy0 hy32]
  by_cases hcond : base_x sprite + dx ≤ x ∧ x < base_x sprite + dx + sprite.width ∧
      base_y sprite + dy ≤ y ∧ y < base_y sprite + dy + sprite.height
  · rw [if_pos ⟨hcond.1, hcond.2.1, hcond.2.2.1, hcond.2.2.2, hx32, hy32⟩, if_pos hcond]
  · rw [if_neg (fun hh => hcond ⟨hh.1, hh.2.1, hh.2.2.1, hh.2.2.2.1⟩), if_neg hcond]

theorem compose_frame_layers_witness :
    ((0 : ℤ), (0 : ℤ)) ∈ OFFSETS ∧ (0 : ℤ) ≤ base_x sprTest + 0 ∧
      (0 : ℤ) ≤ base_y sprTest + 0 ∧
      (∃ frame : Img, composeFrame sprTest (0, 0) = Except.ok frame ∧
        frame.width = 32 ∧ frame.height = 32 ∧
        ∀ x y : ℤ, 0 ≤ x → x < 32 → 0 ≤ y → y < 32 →
          frame.px x y =
            (if base_x sprTest + 0 ≤ x ∧ x < base_x sprTest + 0 + sprTest.width ∧
                base_y sprTest + 0 ≤ y ∧ y < base_y sprTest + 0 + sprTest.height
            then alpha_over
              (sprTest.px (x - (base_x sprTest + 0)) (y - (base_y sprTest + 0)))
              ((shadow_img 0).px (x - 0) y)
            else (shadow_img 0).px (x - 0) y)) :=
  ⟨by decide, by decide, by decide,
    compose_frame_layers sprTest 0 0 (by decide) (by decide) (by decide)⟩

/-- Claim C5, counterexample: for the 33-wide sprite, already at frame 0 (offset
(0, 0)) the paste destination is negative, so the compositor raises a
ValueError and never composites the sprite over the shadow at
(base_x + dx, base_y + dy). -/
theorem compose_frame_wide_no_frame :
    composeFrame spr33 (0, 0) = Except.error PasteError.valueError ∧
      ¬ ∃ frame : Img, composeFrame spr33 (0, 0) = Except.ok frame := by
  have h0 : composeFrame spr33 (0, 0) = Except.error PasteError.valueError := rfl
  refine ⟨h0, ?_⟩
  rintro ⟨frame, hframe⟩
  rw [h0] at hframe
  exact Except.noConfusion hframe

end NpcWalk
